import Mathlib

/-!
The package basex: base-N encoding of byte strings

A shallow embedding of `basex.go` (`NewEncoder`, `Encoder.Encode`,
`Encoder.Decode`, `Encoder.Base`) together with theorems about it.

Modelling conventions

* a Go `byte` is a `Fin 256`; a Go `string` / `[]byte` is a `List Byte`;
* a `*big.Int` that is never negative in this program is a `Nat`;
  `SetBytes`, `DivMod` and `Bytes` of `math/big` are `setBytes`, `/` with `%`,
  and `bigBytes`;
* the map `demap` is a finite partial function `Byte → Option Nat`, built by the
  same left-to-right sequence of assignments as in the source;
* a run-time panic (index out of range, division by zero) is a `Fault`;
  the unbounded `for num != 0` loop takes a fuel argument and reports
  `Fault.outOfFuel` when the fuel is used up before `num` reaches zero;
* an `error` value made with `fmt.Errorf` is a `BasexError`.
-/

namespace Basex

/-- A Go `byte`. -/
abbrev Byte := Fin 256

/-- Abnormal termination of a run: the two panics the code can raise, and the
exhaustion of the fuel given to the division loop. -/
inductive Fault where
  | indexOutOfRange
  | divisionByZero
  | outOfFuel
  deriving DecidableEq

/-- The `error` values of the package. -/
inductive BasexError where
  /-- Returned by `NewEncoder` (`basex.go` line 18). -/
  | tooFewChars
  /-- Returned by `Decode` (`basex.go` line 92); carries the byte `c` printed with `%v`. -/
  | undecodable (c : Byte)
  deriving DecidableEq

/-- The text of an error, as passed to `fmt.Errorf`. -/
def BasexError.message : BasexError → String
  | .tooFewChars => "符号文字は1文字以上指定してください"
  | .undecodable c => "復号化できない文字がふくまれています: " ++ toString c.val

/-- The struct `Encoder`: the symbol table and the reverse table. -/
structure Encoder where
  chars : List Byte
  demap : Byte → Option Nat

/-- The method `Base`: `len(encoder.chars)`. -/
def Encoder.Base (encoder : Encoder) : Nat := encoder.chars.length

/-- The loop `for i, b := range []byte(chars) { encoder.demap[b] = int64(i) }`,
started at index `i` with the map `m`. -/
def fillDemap : List Byte → Nat → (Byte → Option Nat) → (Byte → Option Nat)
  | [], _, m => m
  | b :: rest, i, m => fillDemap rest (i + 1) (fun c => if c = b then some i else m c)

/-- The constructor `NewEncoder`. -/
def NewEncoder (chars : List Byte) : Except BasexError Encoder :=
  if chars.length < 2 then
    .error .tooFewChars
  else
    .ok { chars := chars, demap := fillDemap chars 0 (fun _ => none) }

/-- The value of `new(big.Int).SetBytes(src)`: `src` read as a big-endian
unsigned integer. -/
def setBytes (src : List Byte) : Nat :=
  src.foldl (fun acc b => acc * 256 + b.val) 0

/-- The digits loop of `bigBytes`: peel off the low byte `fuel` times at most. -/
def bytesLoop : Nat → Nat → List Byte → List Byte
  | 0, _, acc => acc
  | fuel + 1, n, acc =>
    if n = 0 then acc
    else bytesLoop fuel (n / 256) (⟨n % 256, Nat.mod_lt n (by decide)⟩ :: acc)

/-- The value of `num.Bytes()`: the big-endian bytes of `n` without leading
zero bytes (empty for `0`). A number `n` has at most `n` bytes. -/
def bigBytes (n : Nat) : List Byte := bytesLoop n n []

/-- The first loop of `Encode` (lines 44-50): one `chars[0]` is written to `res`
for every leading `0x00` of `src`. -/
def encodeZeros (chars : List Byte) : List Byte → List Byte → Except Fault (List Byte)
  | [], res => .ok res
  | c :: rest, res =>
    if c ≠ 0 then .ok res
    else
      match chars[0]? with
      | none => .error .indexOutOfRange
      | some z => encodeZeros chars rest (res ++ [z])

/-- The loop `for num.Cmp(zero) != 0` of `Encode` (lines 58-61), run for at most
`fuel` iterations; `buf` collects the digit symbols, least significant first. -/
def encodeLoop (chars : List Byte) (div : Nat) : Nat → Nat → List Byte → Except Fault (List Byte)
  | 0, num, buf => if num = 0 then .ok buf else .error .outOfFuel
  | fuel + 1, num, buf =>
    if num = 0 then .ok buf
    else if div = 0 then .error .divisionByZero
    else
      match chars[num % div]? with
      | none => .error .indexOutOfRange
      | some c => encodeLoop chars div fuel (num / div) (buf ++ [c])

/-- The method `Encode`, its division loop limited to `fuel` iterations. The last
loop of the source (lines 65-67) appends the bytes of `buf` in reverse order. -/
def EncodeFuel (fuel : Nat) (encoder : Encoder) (src : List Byte) : Except Fault (List Byte) :=
  match encodeZeros encoder.chars src [] with
  | .error f => .error f
  | .ok res =>
    match encodeLoop encoder.chars encoder.Base fuel (setBytes src) [] with
    | .error f => .error f
    | .ok buf => .ok (res ++ buf.reverse)

/-- The method `Encode`, with one iteration of the division loop allowed for
every bit of the input. -/
def Encode (encoder : Encoder) (src : List Byte) : Except Fault (List Byte) :=
  EncodeFuel (8 * src.length) encoder src

/-- The first loop of `Decode` (lines 77-84) at index `i`: returns `startIdx` and
`buf`. When the loop runs off the end of `src` without `break`, `startIdx` still
has its initial value `0`. -/
def decodeZeros (chars : List Byte) : List Byte → Nat → List Byte → Except Fault (Nat × List Byte)
  | [], _, buf => .ok (0, buf)
  | c :: rest, i, buf =>
    match chars[0]? with
    | none => .error .indexOutOfRange
    | some z =>
      if c ≠ z then .ok (i, buf)
      else decodeZeros chars rest (i + 1) (buf ++ [0])

/-- The second loop of `Decode` (lines 89-95): multiply and add, or stop at the
first byte that has no entry in `demap`. -/
def decodeDigits (demap : Byte → Option Nat) (div : Nat) : List Byte → Nat → Except BasexError Nat
  | [], num => .ok num
  | c :: rest, num =>
    match demap c with
    | none => .error (.undecodable c)
    | some charIdx => decodeDigits demap div rest (num * div + charIdx)

/-- The method `Decode`. The Go result pair `([]byte, error)` is a pair of a
byte list (`nil` is `[]`) and an optional error. -/
def Decode (encoder : Encoder) (encoded : List Byte) : Except Fault (List Byte × Option BasexError) :=
  match decodeZeros encoder.chars encoded 0 [] with
  | .error f => .error f
  | .ok (startIdx, buf) =>
    match decodeDigits encoder.demap encoder.Base (encoded.drop startIdx) 0 with
    | .error err => .ok ([], some err)
    | .ok num => .ok (buf ++ bigBytes num, none)

/-- The alphabet of base 58 used in the examples:
`123456789ABCDEFGHJKLMNPQRSTUVWXYZabcdefghijkmnopqrstuvwxyz`. -/
def base58Chars : List Byte :=
  [49, 50, 51, 52, 53, 54, 55, 56, 57,
   65, 66, 67, 68, 69, 70, 71, 72, 74, 75, 76, 77, 78, 80, 81, 82, 83, 84, 85, 86, 87, 88, 89, 90,
   97, 98, 99, 100, 101, 102, 103, 104, 105, 106, 107, 109, 110, 111, 112, 113, 114, 115, 116,
   117, 118, 119, 120, 121, 122]

/-- The encoder that `NewEncoder` builds for an alphabet (used at concrete inputs). -/
def encoderOf (chars : List Byte) : Encoder :=
  { chars := chars, demap := fillDemap chars 0 (fun _ => none) }

/-- The number of leading occurrences of `x` in a byte list. -/
def countLeading (x : Byte) : List Byte → Nat
  | [] => 0
  | c :: rest => if c = x then countLeading x rest + 1 else 0

/-- The digit symbols that `Encode` writes for the number `n`, most significant
first. -/
def digitSyms (a : List Byte) (n : Nat) : List Byte :=
  ((Nat.digits a.length n).map (fun d => a.getD d 0)).reverse

/-- The value of `startIdx` after the first loop of `Decode`, for the zero
symbol `z`: the index of the first byte that differs from `z`, or `0` when
there is none. -/
def startIdxOf (z : Byte) (s : List Byte) : Nat :=
  if countLeading z s = s.length then 0 else countLeading z s

/-- Reference definition (from the specification, not from the code): the value of
a byte sequence read as a big-endian unsigned integer, the sum of
`b_i * 256 ^ (n - 1 - i)`. -/
def beValue : List Byte → Nat
  | [] => 0
  | c :: rest => c.val * 256 ^ rest.length + beValue rest

/-- Reference definition (from the specification): the value `sum d_i * R ^ i` of
a digit sequence written most significant digit first. -/
def radixValue (R : Nat) : List Nat → Nat
  | [] => 0
  | d :: rest => d * R ^ rest.length + radixValue R rest

/-- Reference definition (from the specification): the canonical base-`R` digits
of `N`, most significant first (empty for `0`). -/
def canonicalDigits (R N : Nat) : List Nat := (Nat.digits R N).reverse

/-- Reference definition of `Encode` (from the specification): the zero symbol once
for every leading `0x00` of `b`, then the symbols of the canonical digits of the
big-endian value of `b`. -/
def encodeRef (a : List Byte) (b : List Byte) : List Byte :=
  List.replicate (countLeading 0 b) (a.getD 0 0)
    ++ (canonicalDigits a.length (beValue b)).map (fun d => a.getD d 0)

/-- Reference definition (from the specification): the integer obtained by folding a
text left to right with `acc := acc * R + index(symbol)`, the index being the
position of the symbol in the alphabet. -/
def foldIndices (a : List Byte) (t : List Byte) : Nat :=
  t.foldl (fun acc c => acc * a.length + a.indexOf c) 0

/-! The reverse table -/

theorem fillDemap_of_not_mem (l : List Byte) (i : Nat) (m : Byte → Option Nat) (c : Byte)
    (hc : c ∉ l) : fillDemap l i m c = m c := by
  induction l generalizing i m with
  | nil => rfl
  | cons b rest ih =>
    have hb : c ≠ b := fun h => hc (h ▸ List.mem_cons_self _ _)
    have hr : c ∉ rest := fun h => hc (List.mem_cons_of_mem _ h)
    simp [fillDemap, ih _ _ hr, hb]

theorem fillDemap_isSome_of_mem (l : List Byte) (i : Nat) (m : Byte → Option Nat) (c : Byte)
    (hc : c ∈ l) : ∃ j, fillDemap l i m c = some j ∧ i ≤ j ∧ j < i + l.length := by
  induction l generalizing i m with
  | nil => simp at hc
  | cons b rest ih =>
    by_cases hr : c ∈ rest
    · obtain ⟨j, hj, h1, h2⟩ := ih (i + 1) (fun c => if c = b then some i else m c) hr
      exact ⟨j, by simpa [fillDemap] using hj, by omega, by simp only [List.length_cons]; omega⟩
    · have hcb : c = b := by
        rcases List.mem_cons.mp hc with h | h
        · exact h
        · exact absurd h hr
      subst hcb
      refine ⟨i, ?_, le_refl _, by simp⟩
      simp [fillDemap, fillDemap_of_not_mem _ _ _ _ hr]

theorem fillDemap_eq_none_iff (l : List Byte) (c : Byte) :
    fillDemap l 0 (fun _ => none) c = none ↔ c ∉ l := by
  constructor
  · intro h hc
    obtain ⟨j, hj, _⟩ := fillDemap_isSome_of_mem l 0 (fun _ => none) c hc
    rw [hj] at h
    exact Option.noConfusion h
  · intro hc
    rw [fillDemap_of_not_mem _ _ _ _ hc]

theorem fillDemap_nodup (l : List Byte) (i : Nat) (m : Byte → Option Nat) (hl : l.Nodup)
    (j : Nat) (hj : j < l.length) : fillDemap l i m (l.get ⟨j, hj⟩) = some (i + j) := by
  induction l generalizing i m j with
  | nil => simp at hj
  | cons b rest ih =>
    have hb : b ∉ rest := (List.nodup_cons.mp hl).1
    have hrest : rest.Nodup := (List.nodup_cons.mp hl).2
    cases j with
    | zero => simp [fillDemap, fillDemap_of_not_mem _ _ _ _ hb]
    | succ j =>
      have hj2 : j < rest.length := by simpa using hj
      have := ih (i + 1) (fun c => if c = b then some i else m c) hrest j hj2
      simp only [fillDemap, List.get_cons_succ]
      rw [this]
      congr 1
      omega

/-! Positional arithmetic -/

theorem foldl_radix (R : Nat) (L : List Nat) (n : Nat) :
    L.foldl (fun acc d => acc * R + d) n = n * R ^ L.length + Nat.ofDigits R L.reverse := by
  induction L generalizing n with
  | nil => simp
  | cons d L ih =>
    rw [List.foldl_cons, ih, List.reverse_cons, Nat.ofDigits_append, Nat.ofDigits_singleton,
      List.length_reverse, List.length_cons]
    ring

theorem setBytes_eq (src : List Byte) :
    setBytes src = Nat.ofDigits 256 (src.map Fin.val).reverse := by
  have h := foldl_radix 256 (src.map Fin.val) 0
  rw [List.foldl_map] at h
  simpa [setBytes] using h

theorem setBytes_lt (src : List Byte) : setBytes src < 2 ^ (8 * src.length) := by
  rw [setBytes_eq]
  have h := Nat.ofDigits_lt_base_pow_length (b := 256) (l := (src.map Fin.val).reverse)
    (by decide) (by
      intro x hx
      simp only [List.mem_reverse, List.mem_map] at hx
      obtain ⟨a, _, rfl⟩ := hx
      exact a.isLt)
  simpa [pow_mul] using h

theorem setBytes_zero_cons (b : List Byte) : setBytes (0 :: b) = setBytes b := by
  simp [setBytes]

/-! Encode -/

theorem encodeZeros_eq (chars : List Byte) (z : Byte) (hz : chars[0]? = some z)
    (src res : List Byte) :
    encodeZeros chars src res = .ok (res ++ List.replicate (countLeading 0 src) z) := by
  induction src generalizing res with
  | nil => simp [encodeZeros, countLeading]
  | cons c rest ih =>
    by_cases hc : c = 0
    · simp [encodeZeros, countLeading, hc, hz, ih, List.replicate_succ]
    · simp [encodeZeros, countLeading, hc]

theorem encodeLoop_eq (chars : List Byte) (hR : 2 ≤ chars.length) (fuel num : Nat)
    (buf : List Byte) (hnum : num < 2 ^ fuel) :
    encodeLoop chars chars.length fuel num buf
      = .ok (buf ++ (Nat.digits chars.length num).map (fun d => chars.getD d 0)) := by
  induction fuel generalizing num buf with
  | zero =>
    have h0 : num = 0 := by simpa using hnum
    subst h0
    simp [encodeLoop]
  | succ fuel ih =>
    by_cases h0 : num = 0
    · subst h0
      simp [encodeLoop]
    · have hlt : num % chars.length < chars.length := Nat.mod_lt _ (by omega)
      have hdiv : num / chars.length < 2 ^ fuel := by
        have h1 : num / chars.length ≤ num / 2 := Nat.div_le_div_left hR (by decide)
        have h2 : num / 2 < 2 ^ fuel := by
          rw [Nat.div_lt_iff_lt_mul (by decide)]
          rw [pow_succ] at hnum
          exact hnum
        omega
      have hne : chars.length ≠ 0 := by omega
      rw [Nat.digits_def' (by omega) (Nat.pos_of_ne_zero h0)]
      simp only [encodeLoop, h0, hne, if_false]
      rw [List.getElem?_eq_getElem hlt]
      simp only
      rw [ih _ _ hdiv]
      simp [List.getElem?_eq_getElem hlt]

theorem NewEncoder_ok (a : List Byte) (e : Encoder) (h : NewEncoder a = .ok e) :
    2 ≤ a.length ∧ e = encoderOf a := by
  unfold NewEncoder at h
  split at h
  · exact Except.noConfusion h
  · refine ⟨by omega, ?_⟩
    injection h with h
    exact h.symm

theorem head_exists (a : List Byte) (h : 2 ≤ a.length) : ∃ z, a[0]? = some z := by
  cases a with
  | nil => simp at h
  | cons z _ => exact ⟨z, by simp⟩

theorem EncodeFuel_eq (a : List Byte) (hR : 2 ≤ a.length) (z : Byte) (hz : a[0]? = some z)
    (fuel : Nat) (src : List Byte) (hf : 8 * src.length ≤ fuel) :
    EncodeFuel fuel (encoderOf a) src
      = .ok (List.replicate (countLeading 0 src) z ++ digitSyms a (setBytes src)) := by
  have hlt : setBytes src < 2 ^ fuel :=
    lt_of_lt_of_le (setBytes_lt src) (Nat.pow_le_pow_right (by decide) hf)
  simp only [EncodeFuel, encoderOf, Encoder.Base, encodeZeros_eq a z hz,
    encodeLoop_eq a hR fuel _ _ hlt, List.nil_append, digitSyms]

theorem Encode_eq (a : List Byte) (hR : 2 ≤ a.length) (z : Byte) (hz : a[0]? = some z)
    (src : List Byte) :
    Encode (encoderOf a) src
      = .ok (List.replicate (countLeading 0 src) z ++ digitSyms a (setBytes src)) :=
  EncodeFuel_eq a hR z hz _ src (le_refl _)

/-! The bytes of a number -/

theorem bytesLoop_val (fuel n : Nat) (acc : List Byte) (h : n ≤ fuel) :
    (bytesLoop fuel n acc).map Fin.val = (Nat.digits 256 n).reverse ++ acc.map Fin.val := by
  induction fuel generalizing n acc with
  | zero =>
    have h0 : n = 0 := by omega
    subst h0
    simp [bytesLoop]
  | succ fuel ih =>
    by_cases h0 : n = 0
    · subst h0
      simp [bytesLoop]
    · have hdiv : n / 256 ≤ fuel := by
        have : n / 256 < n := Nat.div_lt_self (Nat.pos_of_ne_zero h0) (by decide)
        omega
      rw [Nat.digits_def' (by decide) (Nat.pos_of_ne_zero h0)]
      simp only [bytesLoop, h0, if_false]
      rw [ih _ _ hdiv]
      simp

theorem bigBytes_val (n : Nat) : (bigBytes n).map Fin.val = (Nat.digits 256 n).reverse := by
  simp [bigBytes, bytesLoop_val n n [] (le_refl _)]

theorem bigBytes_zero : bigBytes 0 = [] := rfl

/-- Writing out the bytes of the number read from `r` gives `r` back when `r` has no
leading zero byte. -/
theorem bigBytes_setBytes (r : List Byte) (hr : ∀ c rest, r = c :: rest → c ≠ 0) :
    bigBytes (setBytes r) = r := by
  apply List.map_injective_iff.mpr Fin.val_injective
  rw [bigBytes_val, setBytes_eq, Nat.digits_ofDigits 256 (by decide), List.reverse_reverse]
  · intro x hx
    simp only [List.mem_reverse, List.mem_map] at hx
    obtain ⟨c, _, rfl⟩ := hx
    exact c.isLt
  · intro hne
    cases r with
    | nil => simp at hne
    | cons c rest =>
      have hc := hr c rest rfl
      simp only [List.map_cons, List.reverse_cons]
      rw [List.getLast_append_singleton]
      exact fun h => hc (Fin.ext h)

/-! Leading symbols -/

theorem countLeading_le (x : Byte) (s : List Byte) : countLeading x s ≤ s.length := by
  induction s with
  | nil => simp [countLeading]
  | cons c rest ih =>
    by_cases hc : c = x
    · simp [countLeading, hc, ih]
    · simp [countLeading, hc]

theorem countLeading_replicate_append (x : Byte) (k : Nat) (s : List Byte) :
    countLeading x (List.replicate k x ++ s) = k + countLeading x s := by
  induction k with
  | zero => simp
  | succ k ih =>
    have h : countLeading x (x :: (List.replicate k x ++ s))
        = countLeading x (List.replicate k x ++ s) + 1 := by
      simp [countLeading]
    rw [List.replicate_succ, List.cons_append, h, ih]
    omega

theorem countLeading_split (x : Byte) (s : List Byte) :
    s = List.replicate (countLeading x s) x ++ s.drop (countLeading x s) ∧
      ∀ c rest, s.drop (countLeading x s) = c :: rest → c ≠ x := by
  induction s with
  | nil => simp [countLeading]
  | cons c rest ih =>
    by_cases hc : c = x
    · subst hc
      simp only [countLeading, if_true, List.replicate_succ, List.cons_append, List.drop_succ_cons]
      exact ⟨by rw [← ih.1], ih.2⟩
    · simp only [countLeading, hc, if_false, List.replicate_zero, List.nil_append, List.drop_zero]
      refine ⟨trivial, ?_⟩
      intro c2 rest2 h
      injection h with h1 _
      exact h1 ▸ hc

/-! Decode -/

theorem decodeZeros_eq (chars : List Byte) (z : Byte) (hz : chars[0]? = some z)
    (s : List Byte) (i : Nat) (buf : List Byte) :
    decodeZeros chars s i buf
      = .ok (if countLeading z s = s.length then 0 else i + countLeading z s,
          buf ++ List.replicate (countLeading z s) 0) := by
  induction s generalizing i buf with
  | nil => simp [decodeZeros, countLeading]
  | cons c rest ih =>
    by_cases hc : c = z
    · subst hc
      simp only [decodeZeros, hz, countLeading, if_true, ne_eq, not_true_eq_false, if_false, ih,
        List.length_cons, List.replicate_succ, add_left_inj]
      by_cases hall : countLeading c rest = rest.length
      · simp [hall]
      · simp only [hall, if_false, List.append_assoc, List.singleton_append]
        congr 2
        omega
    · simp [decodeZeros, countLeading, hz, hc]

theorem Decode_eq (a : List Byte) (z : Byte) (hz : a[0]? = some z) (s : List Byte) :
    Decode (encoderOf a) s =
      match decodeDigits (fillDemap a 0 (fun _ => none)) a.length (s.drop (startIdxOf z s)) 0 with
      | .error err => .ok ([], some err)
      | .ok num => .ok (List.replicate (countLeading z s) 0 ++ bigBytes num, none) := by
  simp only [Decode, encoderOf, Encoder.Base, decodeZeros_eq a z hz, startIdxOf, zero_add,
    List.nil_append]

theorem decodeDigits_ok_of_mem (a : List Byte) (R : Nat) (s : List Byte) (num : Nat)
    (hs : ∀ c ∈ s, c ∈ a) :
    ∃ n, decodeDigits (fillDemap a 0 (fun _ => none)) R s num = .ok n := by
  induction s generalizing num with
  | nil => exact ⟨num, rfl⟩
  | cons c rest ih =>
    obtain ⟨j, hj, _⟩ := fillDemap_isSome_of_mem a 0 (fun _ => none) c (hs c (List.mem_cons_self _ _))
    obtain ⟨n, hn⟩ := ih (num * R + j) (fun x hx => hs x (List.mem_cons_of_mem _ hx))
    exact ⟨n, by simp only [decodeDigits, hj, hn]⟩

theorem decodeDigits_error (a : List Byte) (R : Nat) (pre : List Byte) (c : Byte)
    (post : List Byte) (num : Nat) (hpre : ∀ x ∈ pre, x ∈ a) (hc : c ∉ a) :
    decodeDigits (fillDemap a 0 (fun _ => none)) R (pre ++ c :: post) num
      = .error (.undecodable c) := by
  induction pre generalizing num with
  | nil =>
    simp only [List.nil_append, decodeDigits, (fillDemap_eq_none_iff a c).mpr hc]
  | cons x rest ih =>
    obtain ⟨j, hj, _⟩ := fillDemap_isSome_of_mem a 0 (fun _ => none) x (hpre x (List.mem_cons_self _ _))
    simp only [List.cons_append, decodeDigits, hj]
    exact ih _ (fun y hy => hpre y (List.mem_cons_of_mem _ hy))

theorem decodeDigits_syms (a : List Byte) (ha : a.Nodup) (R : Nat) (ds : List Nat) (num : Nat)
    (hds : ∀ d ∈ ds, d < a.length) :
    decodeDigits (fillDemap a 0 (fun _ => none)) R (ds.map (fun d => a.getD d 0)) num
      = .ok (ds.foldl (fun acc d => acc * R + d) num) := by
  induction ds generalizing num with
  | nil => rfl
  | cons d rest ih =>
    have hd : d < a.length := hds d (List.mem_cons_self _ _)
    have hget : a.getD d 0 = a.get ⟨d, hd⟩ := by simp [List.getElem?_eq_getElem hd]
    have hj := fillDemap_nodup a 0 (fun _ => none) ha d hd
    rw [zero_add] at hj
    simp only [List.map_cons, decodeDigits, hget, hj, List.foldl_cons]
    have := ih (num * R + d) (fun y hy => hds y (List.mem_cons_of_mem _ hy))
    simpa [hget] using this

/-! Digit symbols -/

theorem getD_zero (a : List Byte) (z : Byte) (hz : a[0]? = some z) : a.getD 0 0 = z := by
  simp [List.getD, hz]

theorem digitSyms_zero (a : List Byte) : digitSyms a 0 = [] := by
  simp [digitSyms]

theorem digitSyms_eq_map (a : List Byte) (n : Nat) :
    digitSyms a n = (Nat.digits a.length n).reverse.map (fun d => a.getD d 0) := by
  simp [digitSyms, List.map_reverse]

theorem digitSyms_eq_nil (a : List Byte) (n : Nat) (h : digitSyms a n = []) : n = 0 := by
  simpa [digitSyms, Nat.digits_eq_nil_iff_eq_zero] using h

theorem digitSyms_mem (a : List Byte) (hR : 2 ≤ a.length) (n : Nat) :
    ∀ c ∈ digitSyms a n, c ∈ a := by
  intro c hc
  simp only [digitSyms, List.mem_reverse, List.mem_map] at hc
  obtain ⟨d, hd, rfl⟩ := hc
  have hlt : d < a.length := Nat.digits_lt_base (by omega) hd
  simp [List.getD, List.getElem?_eq_getElem hlt]

theorem digitSyms_head (a : List Byte) (hR : 2 ≤ a.length) (ha : a.Nodup) (z : Byte)
    (hz : a[0]? = some z) (n : Nat) (hn : n ≠ 0) :
    ∃ c s, digitSyms a n = c :: s ∧ c ≠ z := by
  have hne : Nat.digits a.length n ≠ [] := fun h => hn (Nat.digits_eq_nil_iff_eq_zero.mp h)
  have hlast := Nat.getLast_digit_ne_zero a.length hn
  have hmem : (Nat.digits a.length n).getLast hne ∈ Nat.digits a.length n :=
    List.getLast_mem hne
  have hlt : (Nat.digits a.length n).getLast hne < a.length := Nat.digits_lt_base (by omega) hmem
  obtain ⟨L, hL⟩ : ∃ L, Nat.digits a.length n = L ++ [(Nat.digits a.length n).getLast hne] :=
    ⟨_, (List.dropLast_append_getLast hne).symm⟩
  refine ⟨a.getD ((Nat.digits a.length n).getLast hne) 0, (L.map (fun d => a.getD d 0)).reverse,
    ?_, ?_⟩
  · rw [digitSyms]
    conv_lhs => rw [hL]
    simp
  · intro h
    have h0 : (0 : Nat) < a.length := by omega
    have hz2 : a.get ⟨0, h0⟩ = z := by
      have := List.getElem?_eq_getElem h0
      rw [hz] at this
      exact (Option.some.inj this).symm
    have hm : a.getD ((Nat.digits a.length n).getLast hne) 0
        = a.get ⟨(Nat.digits a.length n).getLast hne, hlt⟩ := by
      simp [List.getD, List.getElem?_eq_getElem hlt]
    rw [hm, ← hz2] at h
    have := (List.Nodup.get_inj_iff ha).mp h
    exact hlast (by simpa using congrArg Fin.val this)

theorem countLeading_digitSyms (a : List Byte) (hR : 2 ≤ a.length) (ha : a.Nodup) (z : Byte)
    (hz : a[0]? = some z) (n : Nat) : countLeading z (digitSyms a n) = 0 := by
  by_cases hn : n = 0
  · subst hn
    simp [digitSyms_zero, countLeading]
  · obtain ⟨c, s, hs, hc⟩ := digitSyms_head a hR ha z hz n hn
    simp [hs, countLeading, hc]

theorem setBytes_replicate_append (k : Nat) (r : List Byte) :
    setBytes (List.replicate k 0 ++ r) = setBytes r := by
  induction k with
  | zero => simp
  | succ k ih => rw [List.replicate_succ, List.cons_append, setBytes_zero_cons, ih]

theorem foldl_zeros (R k : Nat) :
    (List.replicate k 0).foldl (fun acc d => acc * R + d) 0 = 0 := by
  induction k with
  | zero => rfl
  | succ k ih => simpa [List.replicate_succ] using ih

/-- Decoding the text that `Encode` writes for `b` gives `b`. -/
theorem decode_encoded (a : List Byte) (hR : 2 ≤ a.length) (ha : a.Nodup) (z : Byte)
    (hz : a[0]? = some z) (b : List Byte) :
    Decode (encoderOf a) (List.replicate (countLeading 0 b) z ++ digitSyms a (setBytes b))
      = .ok (b, none) := by
  have hsym : a.getD 0 0 = z := getD_zero a z hz
  have hcl : countLeading z (List.replicate (countLeading 0 b) z ++ digitSyms a (setBytes b))
      = countLeading 0 b := by
    rw [countLeading_replicate_append, countLeading_digitSyms a hR ha z hz]
    rfl
  have hdig : decodeDigits (fillDemap a 0 (fun _ => none)) a.length
      ((List.replicate (countLeading 0 b) z ++ digitSyms a (setBytes b)).drop
        (startIdxOf z (List.replicate (countLeading 0 b) z ++ digitSyms a (setBytes b)))) 0
      = .ok (setBytes b) := by
    unfold startIdxOf
    rw [hcl]
    split
    · rename_i hlen
      have hnil : digitSyms a (setBytes b) = [] := by
        have : (digitSyms a (setBytes b)).length = 0 := by
          simp only [List.length_append, List.length_replicate] at hlen
          omega
        exact List.length_eq_zero.mp this
      have h0 := digitSyms_eq_nil a _ hnil
      rw [hnil, h0, List.append_nil, List.drop_zero]
      have hrep : List.replicate (countLeading 0 b) z
          = (List.replicate (countLeading 0 b) 0).map (fun d => a.getD d 0) := by
        rw [List.map_replicate, hsym]
      rw [hrep, decodeDigits_syms a ha _ _ _ (by
        intro d hd
        rw [List.eq_of_mem_replicate hd]
        omega), foldl_zeros]
    · have hdrop : (List.replicate (countLeading 0 b) z ++ digitSyms a (setBytes b)).drop
          (countLeading 0 b) = digitSyms a (setBytes b) := by
        apply List.drop_left'
        simp
      rw [hdrop, digitSyms_eq_map, decodeDigits_syms a ha _ _ _ (by
        intro d hd
        exact Nat.digits_lt_base (by omega) (List.mem_reverse.mp hd)), foldl_radix]
      simp [Nat.ofDigits_digits]
  rw [Decode_eq a z hz, hdig, hcl]
  simp only
  obtain ⟨hsplit, hhead⟩ := countLeading_split 0 b
  have hN : setBytes b = setBytes (b.drop (countLeading 0 b)) := by
    conv_lhs => rw [hsplit]
    exact setBytes_replicate_append _ _
  rw [hN, bigBytes_setBytes _ hhead, ← hsplit]

theorem countLeading_append_ne (x c : Byte) (hc : c ≠ x) (pre post : List Byte) :
    countLeading x (pre ++ c :: post) = countLeading x pre := by
  induction pre with
  | nil => simp [countLeading, hc]
  | cons y rest ih =>
    by_cases hy : y = x
    · simp [countLeading, hy, ih]
    · simp [countLeading, hy]

theorem exists_leftmost (a s : List Byte) (h : ∃ x ∈ s, x ∉ a) :
    ∃ pre c post, s = pre ++ c :: post ∧ (∀ x ∈ pre, x ∈ a) ∧ c ∉ a := by
  induction s with
  | nil =>
    obtain ⟨x, hx, _⟩ := h
    simp at hx
  | cons y rest ih =>
    by_cases hy : y ∈ a
    · have hrest : ∃ x ∈ rest, x ∉ a := by
        obtain ⟨x, hx, hxa⟩ := h
        rcases List.mem_cons.mp hx with h1 | h1
        · exact absurd (h1 ▸ hy) hxa
        · exact ⟨x, h1, hxa⟩
      obtain ⟨pre, c, post, hs, hpre, hc⟩ := ih hrest
      refine ⟨y :: pre, c, post, by rw [hs, List.cons_append], ?_, hc⟩
      intro x hx
      rcases List.mem_cons.mp hx with h1 | h1
      · exact h1 ▸ hy
      · exact hpre x h1
    · exact ⟨[], y, rest, rfl, by simp, hy⟩

/-- A text whose leftmost byte outside the alphabet is `c` is rejected with the
error for `c` and no bytes. -/
theorem Decode_invalid (a : List Byte) (z : Byte) (hz : a[0]? = some z)
    (pre : List Byte) (c : Byte) (post : List Byte) (hpre : ∀ x ∈ pre, x ∈ a) (hc : c ∉ a) :
    Decode (encoderOf a) (pre ++ c :: post) = .ok ([], some (.undecodable c)) := by
  have hza : z ∈ a := List.getElem?_mem hz
  have hcz : c ≠ z := fun h => hc (h ▸ hza)
  have hle : startIdxOf z (pre ++ c :: post) ≤ pre.length := by
    unfold startIdxOf
    split
    · exact Nat.zero_le _
    · rw [countLeading_append_ne z c hcz]
      exact countLeading_le z pre
  rw [Decode_eq a z hz, List.drop_append_of_le_length hle,
    decodeDigits_error a a.length _ c post 0 (fun x hx => hpre x (List.mem_of_mem_drop hx)) hc]

/-- A text over the alphabet is decoded without error. -/
theorem Decode_valid (a : List Byte) (z : Byte) (hz : a[0]? = some z) (s : List Byte)
    (hs : ∀ c ∈ s, c ∈ a) : ∃ bs, Decode (encoderOf a) s = .ok (bs, none) := by
  obtain ⟨n, hn⟩ := decodeDigits_ok_of_mem a a.length (s.drop (startIdxOf z s)) 0
    (fun c hc => hs c (List.mem_of_mem_drop hc))
  exact ⟨_, by rw [Decode_eq a z hz, hn]⟩

theorem setBytes_ne_zero (c : Byte) (rest : List Byte) (hc : c ≠ 0) :
    setBytes (c :: rest) ≠ 0 := by
  intro h
  have := bigBytes_setBytes (c :: rest) (by
    intro c2 rest2 h2
    injection h2 with h3 _
    exact h3 ▸ hc)
  rw [h, bigBytes_zero] at this
  exact List.noConfusion this

theorem encodeLoop_total (a : List Byte) (hR : 2 ≤ a.length) (num : Nat) (buf : List Byte) :
    ∃ out, ∀ fuel, num ≤ fuel → encodeLoop a a.length fuel num buf = .ok out := by
  refine ⟨_, fun fuel hf => encodeLoop_eq a hR fuel num buf ?_⟩
  exact lt_of_lt_of_le (Nat.lt_two_pow num) (Nat.pow_le_pow_right (by decide) hf)

/-! Round trip, errors and leading zeros -/

/-- C1. Round trip: for an alphabet `a` of at least two pairwise distinct bytes
and the encoder `e` that `NewEncoder a` returns, `Encode` of any byte sequence
`b` returns a text `s`, and `Decode` of `s` returns exactly `b` and no error. -/
theorem decode_encode_round_trip (a : List Byte) (e : Encoder) (hlen : 2 ≤ a.length)
    (ha : a.Nodup) (he : NewEncoder a = .ok e) (b : List Byte) :
    ∃ s, Encode e b = .ok s ∧ Decode e s = .ok (b, none) := by
  obtain ⟨_, rfl⟩ := NewEncoder_ok a e he
  obtain ⟨z, hz⟩ := head_exists a hlen
  exact ⟨_, Encode_eq a hlen z hz b, decode_encoded a hlen ha z hz b⟩

theorem decode_encode_round_trip_witness :
    2 ≤ base58Chars.length ∧ base58Chars.Nodup ∧
      NewEncoder base58Chars = .ok (encoderOf base58Chars) ∧
      ∃ s, Encode (encoderOf base58Chars) [0, 0, 1, 255, 3] = .ok s ∧
        Decode (encoderOf base58Chars) s = .ok ([0, 0, 1, 255, 3], none) :=
  ⟨by decide, by decide, rfl,
    decode_encode_round_trip base58Chars (encoderOf base58Chars) (by decide) (by decide) rfl
      [0, 0, 1, 255, 3]⟩

/-- C2. For the encoder `e` that `NewEncoder a` returns and every text `s`,
`Decode e s` returns an error if and only if some byte of `s` does not occur in
`a`; a text made of alphabet bytes only is decoded without error. -/
theorem decode_error_iff (a : List Byte) (e : Encoder) (he : NewEncoder a = .ok e)
    (s : List Byte) :
    ((∃ bs err, Decode e s = .ok (bs, some err)) ↔ ∃ c ∈ s, c ∉ a) ∧
      ((∀ c ∈ s, c ∈ a) → ∃ bs, Decode e s = .ok (bs, none)) := by
  obtain ⟨hlen, rfl⟩ := NewEncoder_ok a e he
  obtain ⟨z, hz⟩ := head_exists a hlen
  refine ⟨⟨?_, ?_⟩, Decode_valid a z hz s⟩
  · rintro ⟨bs, err, h⟩
    by_contra hno
    have hall : ∀ c ∈ s, c ∈ a := by
      intro c hc
      by_contra hca
      exact hno ⟨c, hc, hca⟩
    obtain ⟨bs2, h2⟩ := Decode_valid a z hz s hall
    rw [h2] at h
    injection h with h
    injection h with _ h
    exact Option.noConfusion h
  · intro h
    obtain ⟨pre, c, post, rfl, hpre, hc⟩ := exists_leftmost a s h
    exact ⟨[], _, Decode_invalid a z hz pre c post hpre hc⟩

theorem decode_error_iff_witness :
    NewEncoder [97, 98, 99] = .ok (encoderOf [97, 98, 99]) ∧
      ((∃ bs err, Decode (encoderOf [97, 98, 99]) [97, 97, 98, 120] = .ok (bs, some err)) ↔
        ∃ c ∈ ([97, 97, 98, 120] : List Byte), c ∉ ([97, 98, 99] : List Byte)) ∧
      ((∀ c ∈ ([97, 97, 98, 120] : List Byte), c ∈ ([97, 98, 99] : List Byte)) →
        ∃ bs, Decode (encoderOf [97, 98, 99]) [97, 97, 98, 120] = .ok (bs, none)) :=
  ⟨rfl, decode_error_iff [97, 98, 99] (encoderOf [97, 98, 99]) rfl [97, 97, 98, 120]⟩

/-- C3. For the encoder `e` that `NewEncoder a` returns and every text `s` with a
byte outside `a`, `Decode e s` returns the empty byte list together with the
error that carries the leftmost byte of `s` that is not in `a`. -/
theorem decode_invalid_symbol (a : List Byte) (e : Encoder) (he : NewEncoder a = .ok e)
    (s : List Byte) (hs : ∃ x ∈ s, x ∉ a) :
    ∃ pre c post, s = pre ++ c :: post ∧ (∀ x ∈ pre, x ∈ a) ∧ c ∉ a ∧
      Decode e s = .ok ([], some (.undecodable c)) := by
  obtain ⟨hlen, rfl⟩ := NewEncoder_ok a e he
  obtain ⟨z, hz⟩ := head_exists a hlen
  obtain ⟨pre, c, post, rfl, hpre, hc⟩ := exists_leftmost a s hs
  exact ⟨pre, c, post, rfl, hpre, hc, Decode_invalid a z hz pre c post hpre hc⟩

theorem decode_invalid_symbol_witness :
    NewEncoder [97, 98, 99] = .ok (encoderOf [97, 98, 99]) ∧
      (∃ x ∈ ([97, 98, 120, 99, 121] : List Byte), x ∉ ([97, 98, 99] : List Byte)) ∧
      ∃ pre c post, ([97, 98, 120, 99, 121] : List Byte) = pre ++ c :: post ∧
        (∀ x ∈ pre, x ∈ ([97, 98, 99] : List Byte)) ∧ c ∉ ([97, 98, 99] : List Byte) ∧
        Decode (encoderOf [97, 98, 99]) [97, 98, 120, 99, 121]
          = .ok ([], some (.undecodable c)) :=
  ⟨rfl, ⟨120, by decide, by decide⟩,
    decode_invalid_symbol [97, 98, 99] (encoderOf [97, 98, 99]) rfl [97, 98, 120, 99, 121]
      ⟨120, by decide, by decide⟩⟩

/-- C4. The constructor `NewEncoder a` returns an error exactly when `a` has fewer
than two symbols, and returns an encoder exactly when `a` has two or more. -/
theorem newEncoder_error_iff (a : List Byte) :
    ((∃ err, NewEncoder a = .error err) ↔ a.length < 2) ∧
      ((∃ e, NewEncoder a = .ok e) ↔ 2 ≤ a.length) := by
  by_cases h : a.length < 2
  · have hN : NewEncoder a = .error .tooFewChars := by simp [NewEncoder, h]
    rw [hN]
    refine ⟨⟨fun _ => h, fun _ => ⟨_, rfl⟩⟩, ⟨?_, fun h2 => absurd h (by omega)⟩⟩
    rintro ⟨e, he⟩
    exact Except.noConfusion he
  · have hN : NewEncoder a = .ok (encoderOf a) := by simp [NewEncoder, h, encoderOf]
    rw [hN]
    refine ⟨⟨?_, fun h2 => absurd h2 h⟩, ⟨fun _ => by omega, fun _ => ⟨_, rfl⟩⟩⟩
    rintro ⟨err, herr⟩
    exact Except.noConfusion herr

/-- C5. Leading-zero prefix: for the encoder `e` that `NewEncoder a` returns and
the zero symbol `z = a[0]`, `Encode e (0x00 :: b)` is `z` followed by `Encode e b`;
hence `k` leading `0x00` bytes in front of `b` give `k` copies of `z` in front of
`Encode e b`. -/
theorem encode_leading_zero (a : List Byte) (e : Encoder) (he : NewEncoder a = .ok e)
    (z : Byte) (hz : a[0]? = some z) (b : List Byte) :
    ∃ s, Encode e b = .ok s ∧ Encode e (0 :: b) = .ok (z :: s) ∧
      ∀ k, Encode e (List.replicate k 0 ++ b) = .ok (List.replicate k z ++ s) := by
  obtain ⟨hlen, rfl⟩ := NewEncoder_ok a e he
  refine ⟨_, Encode_eq a hlen z hz b, ?_, ?_⟩
  · rw [Encode_eq a hlen z hz, setBytes_zero_cons]
    simp [countLeading, List.replicate_succ]
  · intro k
    rw [Encode_eq a hlen z hz, setBytes_replicate_append, countLeading_replicate_append,
      List.replicate_add, List.append_assoc]

theorem encode_leading_zero_witness :
    NewEncoder base58Chars = .ok (encoderOf base58Chars) ∧ base58Chars[0]? = some 49 ∧
      Encode (encoderOf base58Chars) [0, 1] = .ok [49, 50] ∧
      Encode (encoderOf base58Chars) [0, 0, 1] = .ok [49, 49, 50] ∧
      ∃ s, Encode (encoderOf base58Chars) [1] = .ok s ∧
        Encode (encoderOf base58Chars) (0 :: [1]) = .ok (49 :: s) ∧
        ∀ k, Encode (encoderOf base58Chars) (List.replicate k 0 ++ [1])
          = .ok (List.replicate k 49 ++ s) :=
  ⟨rfl, rfl, rfl, rfl, encode_leading_zero base58Chars (encoderOf base58Chars) rfl 49 rfl [1]⟩

/-- C6. No spurious zero prefix: for an alphabet `a` of at least two pairwise
distinct bytes with zero symbol `z = a[0]`, the encoding of a byte sequence whose
first byte is not `0x00` is non-empty and does not start with `z`; and for every
`b` the number of leading `z` of `Encode e b` equals the number of leading `0x00`
bytes of `b`. -/
theorem encode_no_spurious_zero (a : List Byte) (e : Encoder) (hlen : 2 ≤ a.length)
    (ha : a.Nodup) (he : NewEncoder a = .ok e) (z : Byte) (hz : a[0]? = some z) :
    (∀ c rest, c ≠ 0 → ∃ c2 s, Encode e (c :: rest) = .ok (c2 :: s) ∧ c2 ≠ z) ∧
      (∀ b, ∃ s, Encode e b = .ok s ∧ countLeading z s = countLeading 0 b) := by
  obtain ⟨_, rfl⟩ := NewEncoder_ok a e he
  constructor
  · intro c rest hc
    obtain ⟨c2, s, hs, hc2⟩ :=
      digitSyms_head a hlen ha z hz (setBytes (c :: rest)) (setBytes_ne_zero c rest hc)
    refine ⟨c2, s, ?_, hc2⟩
    rw [Encode_eq a hlen z hz, hs]
    simp [countLeading, hc]
  · intro b
    refine ⟨_, Encode_eq a hlen z hz b, ?_⟩
    rw [countLeading_replicate_append, countLeading_digitSyms a hlen ha z hz]
    rfl

theorem encode_no_spurious_zero_witness :
    2 ≤ base58Chars.length ∧ base58Chars.Nodup ∧
      NewEncoder base58Chars = .ok (encoderOf base58Chars) ∧ base58Chars[0]? = some 49 ∧
      (∀ c rest, c ≠ 0 →
        ∃ c2 s, Encode (encoderOf base58Chars) (c :: rest) = .ok (c2 :: s) ∧ c2 ≠ 49) ∧
      (∀ b, ∃ s, Encode (encoderOf base58Chars) b = .ok s ∧
        countLeading 49 s = countLeading 0 b) :=
  ⟨by decide, by decide, rfl, rfl,
    encode_no_spurious_zero base58Chars (encoderOf base58Chars) (by decide) (by decide) rfl 49
      rfl⟩

/-- C7. All-zero and empty input: for the encoder `e` that `NewEncoder a` returns
and every `n`, `Encode` of `n` bytes `0x00` is the zero symbol `z = a[0]` repeated
`n` times; `Encode` of the empty input is the empty text. -/
theorem encode_all_zero (a : List Byte) (e : Encoder) (he : NewEncoder a = .ok e)
    (z : Byte) (hz : a[0]? = some z) (n : Nat) :
    Encode e (List.replicate n 0) = .ok (List.replicate n z) ∧ Encode e [] = .ok [] := by
  obtain ⟨hlen, rfl⟩ := NewEncoder_ok a e he
  constructor
  · have h1 := setBytes_replicate_append n []
    have h2 := countLeading_replicate_append 0 n []
    rw [List.append_nil] at h1 h2
    rw [Encode_eq a hlen z hz, h1, h2]
    simp [setBytes, countLeading, digitSyms_zero]
  · rw [Encode_eq a hlen z hz]
    simp [setBytes, countLeading, digitSyms_zero]

theorem encode_all_zero_witness :
    NewEncoder [120, 121, 122] = .ok (encoderOf [120, 121, 122]) ∧
      ([120, 121, 122] : List Byte)[0]? = some 120 ∧
      Encode (encoderOf [120, 121, 122]) (List.replicate 3 0) = .ok (List.replicate 3 120) ∧
      Encode (encoderOf [120, 121, 122]) [] = .ok [] :=
  ⟨rfl, rfl, encode_all_zero [120, 121, 122] (encoderOf [120, 121, 122]) rfl 120 rfl 3⟩

/-- C8. All-zero-symbol and empty text: for an alphabet `a` of at least two
pairwise distinct bytes with zero symbol `z = a[0]` and every `n`, `Decode` of
`z` repeated `n` times returns exactly `n` bytes `0x00` and no error; `Decode` of
the empty text returns the empty byte sequence. -/
theorem decode_all_zero_symbol (a : List Byte) (e : Encoder) (hlen : 2 ≤ a.length)
    (ha : a.Nodup) (he : NewEncoder a = .ok e) (z : Byte) (hz : a[0]? = some z) (n : Nat) :
    Decode e (List.replicate n z) = .ok (List.replicate n 0, none) ∧
      Decode e [] = .ok ([], none) := by
  obtain ⟨_, rfl⟩ := NewEncoder_ok a e he
  have h1 := setBytes_replicate_append n []
  have h2 := countLeading_replicate_append 0 n []
  rw [List.append_nil] at h1 h2
  have h3 : setBytes [] = 0 := rfl
  have h4 : countLeading 0 [] = 0 := rfl
  constructor
  · have h := decode_encoded a hlen ha z hz (List.replicate n 0)
    rw [h1, h2, h3, h4, digitSyms_zero, Nat.add_zero, List.append_nil] at h
    exact h
  · have h := decode_encoded a hlen ha z hz []
    rw [h3, h4, digitSyms_zero] at h
    exact h

theorem decode_all_zero_symbol_witness :
    2 ≤ ([120, 121, 122] : List Byte).length ∧ ([120, 121, 122] : List Byte).Nodup ∧
      NewEncoder [120, 121, 122] = .ok (encoderOf [120, 121, 122]) ∧
      ([120, 121, 122] : List Byte)[0]? = some 120 ∧
      Decode (encoderOf [120, 121, 122]) (List.replicate 3 120)
        = .ok (List.replicate 3 0, none) ∧
      Decode (encoderOf [120, 121, 122]) [] = .ok ([], none) :=
  ⟨by decide, by decide, rfl, rfl,
    decode_all_zero_symbol [120, 121, 122] (encoderOf [120, 121, 122]) (by decide) (by decide)
      rfl 120 rfl 3⟩

/-- C9. The output of `Encode` is a text over the alphabet: for the encoder `e` that
`NewEncoder a` returns and every `b`, every byte of `Encode e b` is a symbol of
`a`, so `Decode` accepts it without an error. -/
theorem encode_over_alphabet (a : List Byte) (e : Encoder) (he : NewEncoder a = .ok e)
    (b : List Byte) :
    ∃ s, Encode e b = .ok s ∧ (∀ c ∈ s, c ∈ a) ∧ ∃ bs, Decode e s = .ok (bs, none) := by
  obtain ⟨hlen, rfl⟩ := NewEncoder_ok a e he
  obtain ⟨z, hz⟩ := head_exists a hlen
  have hmem : ∀ c ∈ List.replicate (countLeading 0 b) z ++ digitSyms a (setBytes b), c ∈ a := by
    intro c hc
    rcases List.mem_append.mp hc with h | h
    · rw [List.eq_of_mem_replicate h]
      exact List.getElem?_mem hz
    · exact digitSyms_mem a hlen _ c h
  exact ⟨_, Encode_eq a hlen z hz b, hmem, Decode_valid a z hz _ hmem⟩

theorem encode_over_alphabet_witness :
    NewEncoder [97, 97, 98] = .ok (encoderOf [97, 97, 98]) ∧
      ∃ s, Encode (encoderOf [97, 97, 98]) [0, 200, 7] = .ok s ∧
        (∀ c ∈ s, c ∈ ([97, 97, 98] : List Byte)) ∧
        ∃ bs, Decode (encoderOf [97, 97, 98]) s = .ok (bs, none) :=
  ⟨rfl, encode_over_alphabet [97, 97, 98] (encoderOf [97, 97, 98]) rfl [0, 200, 7]⟩

/-- C10. The method `Encode` is total: for the encoder `e` that `NewEncoder a`
returns the radix is at least 2, so the quotient `num / radix` is strictly
smaller than a non-zero `num`, the division loop started at any `num` ends with
a result once it is given `num` iterations, and `Encode e b` returns a text, the
same for every number of allowed iterations from `8 * len(b)` on. -/
theorem encode_total (a : List Byte) (e : Encoder) (he : NewEncoder a = .ok e) :
    2 ≤ e.Base ∧ (∀ num, num ≠ 0 → num / e.Base < num) ∧
      (∀ num buf, ∃ out, ∀ fuel, num ≤ fuel →
        encodeLoop e.chars e.Base fuel num buf = .ok out) ∧
      ∀ b, ∃ s, Encode e b = .ok s ∧
        ∀ fuel, 8 * b.length ≤ fuel → EncodeFuel fuel e b = .ok s := by
  obtain ⟨hlen, rfl⟩ := NewEncoder_ok a e he
  obtain ⟨z, hz⟩ := head_exists a hlen
  refine ⟨hlen, ?_, encodeLoop_total a hlen, ?_⟩
  · intro num hnum
    exact Nat.div_lt_self (Nat.pos_of_ne_zero hnum) hlen
  · intro b
    exact ⟨_, Encode_eq a hlen z hz b, fun fuel hf => EncodeFuel_eq a hlen z hz fuel b hf⟩

theorem encode_total_witness :
    NewEncoder [48, 49] = .ok (encoderOf [48, 49]) ∧
      2 ≤ (encoderOf [48, 49]).Base ∧
      (∀ num, num ≠ 0 → num / (encoderOf [48, 49]).Base < num) ∧
      (∀ num buf, ∃ out, ∀ fuel, num ≤ fuel →
        encodeLoop (encoderOf [48, 49]).chars (encoderOf [48, 49]).Base fuel num buf
          = .ok out) ∧
      ∀ b, ∃ s, Encode (encoderOf [48, 49]) b = .ok s ∧
        ∀ fuel, 8 * b.length ≤ fuel → EncodeFuel fuel (encoderOf [48, 49]) b = .ok s :=
  ⟨rfl, encode_total [48, 49] (encoderOf [48, 49]) rfl⟩

/-! Construction: the tables and the length guard -/

theorem fillDemap_last (l : List Byte) (i : Nat) (m : Byte → Option Nat) (c : Byte)
    (hc : c ∈ l) :
    ∃ j, fillDemap l i m c = some (i + j) ∧ l[j]? = some c ∧ ∀ k, j < k → l[k]? ≠ some c := by
  induction l generalizing i m with
  | nil => simp at hc
  | cons b rest ih =>
    by_cases hr : c ∈ rest
    · obtain ⟨j, hj, hget, hlast⟩ := ih (i + 1) (fun c => if c = b then some i else m c) hr
      refine ⟨j + 1, ?_, by simpa using hget, ?_⟩
      · rw [fillDemap, hj]
        congr 1
        omega
      · intro k hk
        obtain ⟨k2, rfl⟩ : ∃ k2, k = k2 + 1 := ⟨k - 1, by omega⟩
        simpa using hlast k2 (by omega)
    · have hcb : c = b := by
        rcases List.mem_cons.mp hc with h | h
        · exact h
        · exact absurd h hr
      subst hcb
      refine ⟨0, ?_, by simp, ?_⟩
      · simp [fillDemap, fillDemap_of_not_mem _ _ _ _ hr]
      · intro k hk
        obtain ⟨k2, rfl⟩ : ∃ k2, k = k2 + 1 := ⟨k - 1, by omega⟩
        intro h
        exact hr (List.getElem?_mem (by simpa using h))

/-- With a table of one symbol the division loop never reaches zero: whatever the
fuel, it is used up. -/
theorem encodeLoop_one_symbol (c : Byte) (fuel num : Nat) (buf : List Byte) (h : num ≠ 0) :
    encodeLoop [c] 1 fuel num buf = .error .outOfFuel := by
  induction fuel generalizing buf with
  | zero => simp [encodeLoop, h]
  | succ fuel ih => simp [encodeLoop, h, Nat.mod_one, ih]

/-- C11 as stated fails (first occurrence wins): for the alphabet `aba` the symbol
`a` first occurs at index 0, but the reverse table maps it to 2, and `Decode`
of `ba` uses 2 (it returns the byte `1 * 3 + 2 = 5`, not `3`). -/
theorem demap_first_occurrence_counterexample :
    NewEncoder [97, 98, 97] = .ok (encoderOf [97, 98, 97]) ∧
      (97 : Byte) ∈ ([97, 98, 97] : List Byte) ∧
      List.indexOf (97 : Byte) [97, 98, 97] = 0 ∧
      (encoderOf [97, 98, 97]).demap 97 = some 2 ∧
      (encoderOf [97, 98, 97]).demap 97 ≠ some (List.indexOf (97 : Byte) [97, 98, 97]) ∧
      Decode (encoderOf [97, 98, 97]) [98, 97] = .ok ([5], none) :=
  ⟨rfl, by decide, by decide, rfl, by decide, rfl⟩

/-- C11 amended (last occurrence wins): for the encoder `e` that `NewEncoder a`
returns and every symbol `c` occurring in `a`, the reverse table maps `c` to the
index `j` of the last occurrence of `c` in `a`: `a[j] = c` and `c` occurs at no
later index. Whenever the digit loop of `Decode` (lines 89-95) reads `c` it adds
that `j` (`num := num * Base + j`), and `Decode` of the one-symbol text `c`, for
`c` other than the zero symbol `a[0]`, returns the big-endian bytes of `j`. -/
theorem demap_last_occurrence (a : List Byte) (e : Encoder) (he : NewEncoder a = .ok e)
    (c : Byte) (hc : c ∈ a) :
    ∃ j, e.demap c = some j ∧ a[j]? = some c ∧ (∀ k, j < k → a[k]? ≠ some c) ∧
      (∀ rest num, decodeDigits e.demap e.Base (c :: rest) num
        = decodeDigits e.demap e.Base rest (num * e.Base + j)) ∧
      (∀ z, a[0]? = some z → c ≠ z → Decode e [c] = .ok (bigBytes j, none)) := by
  obtain ⟨_, rfl⟩ := NewEncoder_ok a e he
  obtain ⟨j, hj, hget, hlast⟩ := fillDemap_last a 0 (fun _ => none) c hc
  rw [zero_add] at hj
  refine ⟨j, hj, hget, hlast, ?_, ?_⟩
  · intro rest num
    have hd : (encoderOf a).demap c = some j := hj
    simp only [decodeDigits, hd]
  · intro z hz hcz
    have hcl : countLeading z [c] = 0 := by simp [countLeading, hcz]
    have hst : startIdxOf z [c] = 0 := by simp [startIdxOf, hcl]
    rw [Decode_eq a z hz, hst, hcl, List.drop_zero]
    simp only [decodeDigits, hj, Nat.zero_mul, Nat.zero_add, List.replicate_zero,
      List.nil_append]

theorem demap_last_occurrence_witness :
    NewEncoder [97, 98, 98] = .ok (encoderOf [97, 98, 98]) ∧
      (98 : Byte) ∈ ([97, 98, 98] : List Byte) ∧
      (encoderOf [97, 98, 98]).demap 98 = some 2 ∧
      Decode (encoderOf [97, 98, 98]) [98] = .ok ([2], none) ∧
      ∃ j, (encoderOf [97, 98, 98]).demap 98 = some j ∧
        ([97, 98, 98] : List Byte)[j]? = some 98 ∧
        (∀ k, j < k → ([97, 98, 98] : List Byte)[k]? ≠ some 98) ∧
        (∀ rest num,
          decodeDigits (encoderOf [97, 98, 98]).demap (encoderOf [97, 98, 98]).Base
              (98 :: rest) num
            = decodeDigits (encoderOf [97, 98, 98]).demap (encoderOf [97, 98, 98]).Base rest
              (num * (encoderOf [97, 98, 98]).Base + j)) ∧
        (∀ z, ([97, 98, 98] : List Byte)[0]? = some z → (98 : Byte) ≠ z →
          Decode (encoderOf [97, 98, 98]) [98] = .ok (bigBytes j, none)) :=
  ⟨rfl, by decide, rfl, rfl,
    demap_last_occurrence [97, 98, 98] (encoderOf [97, 98, 98]) rfl 98 (by decide)⟩

/-- C12. Radix equals alphabet length: for the encoder `e` that `NewEncoder a`
returns, `e.Base` is the number of bytes of `a`, the forward table holds the
`i`-th symbol of `a` at every index `i < e.Base`, and `e.Base` is at least 2. -/
theorem base_eq_alphabet_length (a : List Byte) (e : Encoder) (he : NewEncoder a = .ok e) :
    e.Base = a.length ∧
      (∀ i, i < e.Base → ∃ c, e.chars[i]? = some c ∧ a[i]? = some c) ∧ 2 ≤ e.Base := by
  obtain ⟨hlen, rfl⟩ := NewEncoder_ok a e he
  refine ⟨rfl, ?_, hlen⟩
  intro i hi
  have hi2 : i < a.length := hi
  exact ⟨a.get ⟨i, hi2⟩, by simp [encoderOf, List.getElem?_eq_getElem hi2],
    by simp [List.getElem?_eq_getElem hi2]⟩

theorem base_eq_alphabet_length_witness :
    NewEncoder base58Chars = .ok (encoderOf base58Chars) ∧
      (encoderOf base58Chars).Base = base58Chars.length ∧
      (∀ i, i < (encoderOf base58Chars).Base →
        ∃ c, (encoderOf base58Chars).chars[i]? = some c ∧ base58Chars[i]? = some c) ∧
      2 ≤ (encoderOf base58Chars).Base :=
  ⟨rfl, base_eq_alphabet_length base58Chars (encoderOf base58Chars) rfl⟩

/-- C13 as stated fails (every alphabet of one or more symbols is accepted): the
one-symbol alphabet `a` has length 1 and `NewEncoder` returns the error for it,
and no encoder. -/
theorem newEncoder_one_symbol_counterexample :
    1 ≤ ([97] : List Byte).length ∧ NewEncoder [97] = .error .tooFewChars ∧
      ¬ ∃ e, NewEncoder [97] = .ok e :=
  ⟨by decide, rfl, fun ⟨_, h⟩ => Except.noConfusion h⟩

/-- C13 amended: `NewEncoder` rejects the empty alphabet and every alphabet of
one symbol with the error `tooFewChars`, and accepts exactly the alphabets of two
or more symbols, for which it returns the encoder over that alphabet. -/
theorem newEncoder_accepts_iff_two (a : List Byte) :
    (NewEncoder a = .error .tooFewChars ↔ a.length ≤ 1) ∧
      ((∃ e, NewEncoder a = .ok e ∧ e.chars = a) ↔ 2 ≤ a.length) := by
  by_cases h : a.length < 2
  · have hN : NewEncoder a = .error .tooFewChars := by simp [NewEncoder, h]
    rw [hN]
    refine ⟨⟨fun _ => by omega, fun _ => rfl⟩, ⟨?_, fun h2 => absurd h (by omega)⟩⟩
    rintro ⟨e, he, _⟩
    exact Except.noConfusion he
  · have hN : NewEncoder a = .ok (encoderOf a) := by simp [NewEncoder, h, encoderOf]
    rw [hN]
    refine ⟨⟨fun h2 => Except.noConfusion h2, fun h2 => absurd h2 (by omega)⟩,
      ⟨fun _ => by omega, fun _ => ⟨_, rfl, rfl⟩⟩⟩

/-! Encode and Decode against their reference definitions -/

theorem setBytes_cons (c : Byte) (rest : List Byte) :
    setBytes (c :: rest) = c.val * 256 ^ rest.length + setBytes rest := by
  have h1 := foldl_radix 256 (rest.map Fin.val) (0 * 256 + c.val)
  have h2 := foldl_radix 256 (rest.map Fin.val) 0
  rw [List.foldl_map] at h1 h2
  simp only [setBytes, List.foldl_cons]
  rw [h1, h2]
  simp

theorem beValue_eq_setBytes (b : List Byte) : beValue b = setBytes b := by
  induction b with
  | nil => rfl
  | cons c rest ih => rw [beValue, setBytes_cons, ih]

theorem radixValue_eq (R : Nat) (ds : List Nat) :
    radixValue R ds = Nat.ofDigits R ds.reverse := by
  induction ds with
  | nil => rfl
  | cons d rest ih =>
    rw [radixValue, ih, List.reverse_cons, Nat.ofDigits_append, Nat.ofDigits_singleton,
      List.length_reverse]
    ring

theorem canonicalDigits_head (R N : Nat) : (canonicalDigits R N).head? ≠ some 0 := by
  unfold canonicalDigits
  rw [List.head?_reverse]
  by_cases hN : N = 0
  · subst hN
    simp
  · have hne : Nat.digits R N ≠ [] := fun h => hN (Nat.digits_eq_nil_iff_eq_zero.mp h)
    rw [List.getLast?_eq_getLast _ hne]
    intro h
    exact Nat.getLast_digit_ne_zero R hN (Option.some.inj h)

/-- C14. Refinement of the reference definition: for the encoder `e` that
`NewEncoder a` returns, with `R = len(a)`, and every byte sequence `b` with big-endian
value `N`, `Encode e b` returns `encodeRef a b`: the zero symbol `a[0]` once per
leading `0x00` byte, then the symbols `a[d]` of the digits `d` of `N` in base `R`,
most significant first; these digits are all below `R`, do not start with the
digit 0, are empty when `N = 0`, and their value `sum d_i * R ^ i` is `N`. -/
theorem encode_eq_reference (a : List Byte) (e : Encoder) (he : NewEncoder a = .ok e)
    (b : List Byte) :
    Encode e b = .ok (encodeRef a b) ∧
      (∀ d ∈ canonicalDigits a.length (beValue b), d < a.length) ∧
      (canonicalDigits a.length (beValue b)).head? ≠ some 0 ∧
      (beValue b = 0 → canonicalDigits a.length (beValue b) = []) ∧
      radixValue a.length (canonicalDigits a.length (beValue b)) = beValue b := by
  obtain ⟨hlen, rfl⟩ := NewEncoder_ok a e he
  obtain ⟨z, hz⟩ := head_exists a hlen
  refine ⟨?_, ?_, canonicalDigits_head _ _, ?_, ?_⟩
  · rw [Encode_eq a hlen z hz, encodeRef, canonicalDigits, getD_zero a z hz, digitSyms_eq_map,
      beValue_eq_setBytes]
  · intro d hd
    exact Nat.digits_lt_base (by omega) (List.mem_reverse.mp hd)
  · intro h0
    rw [h0, canonicalDigits, Nat.digits_zero, List.reverse_nil]
  · rw [radixValue_eq, canonicalDigits, List.reverse_reverse, Nat.ofDigits_digits]

theorem encode_eq_reference_witness :
    NewEncoder base58Chars = .ok (encoderOf base58Chars) ∧
      Encode (encoderOf base58Chars) [0, 0, 1, 255, 3] = .ok (encodeRef base58Chars [0, 0, 1, 255, 3]) ∧
      (∀ d ∈ canonicalDigits base58Chars.length (beValue [0, 0, 1, 255, 3]),
        d < base58Chars.length) ∧
      (canonicalDigits base58Chars.length (beValue [0, 0, 1, 255, 3])).head? ≠ some 0 ∧
      (beValue [0, 0, 1, 255, 3] = 0 →
        canonicalDigits base58Chars.length (beValue [0, 0, 1, 255, 3]) = []) ∧
      radixValue base58Chars.length (canonicalDigits base58Chars.length (beValue [0, 0, 1, 255, 3]))
        = beValue [0, 0, 1, 255, 3] :=
  ⟨rfl, encode_eq_reference base58Chars (encoderOf base58Chars) rfl [0, 0, 1, 255, 3]⟩

theorem demap_indexOf (a : List Byte) (ha : a.Nodup) (c : Byte) (hc : c ∈ a) :
    fillDemap a 0 (fun _ => none) c = some (a.indexOf c) := by
  have hlt : a.indexOf c < a.length := List.indexOf_lt_length.mpr hc
  have h := fillDemap_nodup a 0 (fun _ => none) ha (a.indexOf c) hlt
  rw [zero_add, List.indexOf_get hlt] at h
  exact h

theorem decodeDigits_valid (a : List Byte) (ha : a.Nodup) (R : Nat) (s : List Byte) (num : Nat)
    (hs : ∀ c ∈ s, c ∈ a) :
    decodeDigits (fillDemap a 0 (fun _ => none)) R s num
      = .ok (s.foldl (fun acc c => acc * R + a.indexOf c) num) := by
  induction s generalizing num with
  | nil => rfl
  | cons c rest ih =>
    rw [decodeDigits, demap_indexOf a ha c (hs c (List.mem_cons_self _ _))]
    exact ih _ (fun x hx => hs x (List.mem_cons_of_mem _ hx))

theorem indexOf_zero_symbol (a : List Byte) (z : Byte) (hz : a[0]? = some z) :
    a.indexOf z = 0 := by
  cases a with
  | nil => simp at hz
  | cons y rest =>
    have hy : y = z := by simpa using hz
    subst hy
    exact List.indexOf_cons_self _ _

theorem foldl_zero_symbol (a : List Byte) (z : Byte) (hz : a[0]? = some z) (n : Nat) :
    (List.replicate n z).foldl (fun acc c => acc * a.length + a.indexOf c) 0 = 0 := by
  induction n with
  | zero => rfl
  | succ n ih => simpa [List.replicate_succ, indexOf_zero_symbol a z hz] using ih

theorem setBytes_bigBytes (n : Nat) : setBytes (bigBytes n) = n := by
  rw [setBytes_eq, bigBytes_val, List.reverse_reverse, Nat.ofDigits_digits]

theorem bigBytes_head (n : Nat) : ∀ c rest, bigBytes n = c :: rest → c ≠ 0 := by
  intro c rest h hc
  have hv := bigBytes_val n
  rw [h, List.map_cons] at hv
  have hd : Nat.digits 256 n = (rest.map Fin.val).reverse ++ [c.val] := by
    have := congrArg List.reverse hv
    rw [List.reverse_reverse] at this
    rw [← this, List.reverse_cons]
  have hn : n ≠ 0 := by
    intro h0
    rw [h0, Nat.digits_zero] at hd
    exact absurd hd.symm (List.append_ne_nil_of_right_ne_nil _ (List.cons_ne_nil _ _))
  have hlast := Nat.getLast_digit_ne_zero 256 hn
  simp only [hd, List.getLast_append_singleton] at hlast
  exact hlast (by rw [hc]; rfl)

theorem countLeading_of_head (x : Byte) (m : List Byte)
    (hm : ∀ c rest, m = c :: rest → c ≠ x) : countLeading x m = 0 := by
  cases m with
  | nil => rfl
  | cons c rest => simp [countLeading, hm c rest rfl]

/-- The number that the second loop of `Decode` accumulates for a text over a
duplicate-free alphabet: the fold of the text after its leading zero symbols. -/
theorem decodeDigits_start (a : List Byte) (ha : a.Nodup) (z : Byte) (hz : a[0]? = some z)
    (s : List Byte) (hs : ∀ c ∈ s, c ∈ a) :
    decodeDigits (fillDemap a 0 (fun _ => none)) a.length (s.drop (startIdxOf z s)) 0
      = .ok (foldIndices a (s.drop (countLeading z s))) := by
  unfold startIdxOf
  split
  · rename_i hall
    obtain ⟨hsplit, _⟩ := countLeading_split z s
    have hnil : s.drop (countLeading z s) = [] := by
      rw [hall]
      exact List.drop_length s
    rw [hnil, List.append_nil] at hsplit
    rw [List.drop_zero, decodeDigits_valid a ha _ s 0 hs, hnil]
    conv_lhs => rw [hsplit]
    rw [foldl_zero_symbol a z hz]
    rfl
  · rw [decodeDigits_valid a ha _ _ 0 (fun c hc => hs c (List.mem_of_mem_drop hc))]
    rfl

theorem Decode_eq_fold (a : List Byte) (ha : a.Nodup) (z : Byte) (hz : a[0]? = some z)
    (s : List Byte) (hs : ∀ c ∈ s, c ∈ a) :
    Decode (encoderOf a) s
      = .ok (List.replicate (countLeading z s) 0
          ++ bigBytes (foldIndices a (s.drop (countLeading z s))), none) := by
  rw [Decode_eq a z hz, decodeDigits_start a ha z hz s hs]

/-- C15. Refinement of the reference definition: for an alphabet `a` of `R >= 2`
pairwise distinct bytes with zero symbol `z = a[0]` and every text `s` over `a`,
with `k` the number of leading `z` of `s` and `t` the rest of `s`, `Decode e s`
returns `k` bytes `0x00` followed by the bytes `m` that are the minimal
big-endian representation (value equal to the fold, no leading zero byte, hence
empty for 0) of the integer obtained by folding `t` with
`acc := acc * R + index(symbol)`; the result has exactly `k` leading `0x00`. -/
theorem decode_eq_reference (a : List Byte) (e : Encoder)
    (ha : a.Nodup) (he : NewEncoder a = .ok e) (z : Byte) (hz : a[0]? = some z)
    (s : List Byte) (hs : ∀ c ∈ s, c ∈ a) :
    ∃ m, Decode e s = .ok (List.replicate (countLeading z s) 0 ++ m, none) ∧
      beValue m = foldIndices a (s.drop (countLeading z s)) ∧
      (∀ c rest, m = c :: rest → c ≠ 0) ∧
      (foldIndices a (s.drop (countLeading z s)) = 0 → m = []) ∧
      countLeading 0 (List.replicate (countLeading z s) 0 ++ m) = countLeading z s := by
  obtain ⟨_, rfl⟩ := NewEncoder_ok a e he
  refine ⟨bigBytes (foldIndices a (s.drop (countLeading z s))),
    Decode_eq_fold a ha z hz s hs, ?_, bigBytes_head _, ?_, ?_⟩
  · rw [beValue_eq_setBytes, setBytes_bigBytes]
  · intro h0
    rw [h0, bigBytes_zero]
  · rw [countLeading_replicate_append, countLeading_of_head 0 _ (bigBytes_head _)]
    rfl

theorem decode_eq_reference_witness :
    ([97, 98, 99] : List Byte).Nodup ∧
      NewEncoder [97, 98, 99] = .ok (encoderOf [97, 98, 99]) ∧
      ([97, 98, 99] : List Byte)[0]? = some 97 ∧
      (∀ c ∈ ([97, 97, 98, 97, 99] : List Byte), c ∈ ([97, 98, 99] : List Byte)) ∧
      ∃ m, Decode (encoderOf [97, 98, 99]) [97, 97, 98, 97, 99]
          = .ok (List.replicate (countLeading 97 [97, 97, 98, 97, 99]) 0 ++ m, none) ∧
        beValue m
          = foldIndices [97, 98, 99] (List.drop (countLeading 97 [97, 97, 98, 97, 99])
              [97, 97, 98, 97, 99]) ∧
        (∀ c rest, m = c :: rest → c ≠ 0) ∧
        (foldIndices [97, 98, 99] (List.drop (countLeading 97 [97, 97, 98, 97, 99])
              [97, 97, 98, 97, 99]) = 0 → m = []) ∧
        countLeading 0 (List.replicate (countLeading 97 [97, 97, 98, 97, 99]) 0 ++ m)
          = countLeading 97 [97, 97, 98, 97, 99] :=
  ⟨by decide, rfl, rfl, by simp,
    decode_eq_reference [97, 98, 99] (encoderOf [97, 98, 99]) (by decide) rfl 97 rfl
      [97, 97, 98, 97, 99] (by simp)⟩

/-! Index safety -/

theorem encodeLoop_no_panic (a : List Byte) (hR : 2 ≤ a.length) (fuel num : Nat)
    (buf : List Byte) :
    (∃ out, encodeLoop a a.length fuel num buf = .ok out) ∨
      encodeLoop a a.length fuel num buf = .error .outOfFuel := by
  induction fuel generalizing num buf with
  | zero =>
    by_cases h0 : num = 0
    · exact Or.inl ⟨buf, by simp [encodeLoop, h0]⟩
    · exact Or.inr (by simp [encodeLoop, h0])
  | succ fuel ih =>
    by_cases h0 : num = 0
    · exact Or.inl ⟨buf, by simp [encodeLoop, h0]⟩
    · have hlt : num % a.length < a.length := Nat.mod_lt _ (by omega)
      have hne : a.length ≠ 0 := by omega
      have hstep : encodeLoop a a.length (fuel + 1) num buf
          = encodeLoop a a.length fuel (num / a.length) (buf ++ [a.get ⟨num % a.length, hlt⟩]) := by
        simp only [encodeLoop, h0, hne, if_false]
        rw [List.getElem?_eq_getElem hlt]
        rfl
      rw [hstep]
      exact ih _ _

theorem EncodeFuel_no_panic (a : List Byte) (hR : 2 ≤ a.length) (fuel : Nat) (b : List Byte) :
    (∃ s, EncodeFuel fuel (encoderOf a) b = .ok s) ∨
      EncodeFuel fuel (encoderOf a) b = .error .outOfFuel := by
  obtain ⟨z, hz⟩ := head_exists a hR
  rcases encodeLoop_no_panic a hR fuel (setBytes b) [] with ⟨out, h⟩ | h
  · refine Or.inl ⟨[] ++ List.replicate (countLeading 0 b) z ++ out.reverse, ?_⟩
    simp only [EncodeFuel, encoderOf, Encoder.Base, encodeZeros_eq a z hz, h]
  · exact Or.inr (by
      simp only [EncodeFuel, encoderOf, Encoder.Base, encodeZeros_eq a z hz, h])

theorem Decode_no_panic (a : List Byte) (hR : 2 ≤ a.length) (s : List Byte) :
    ∃ r, Decode (encoderOf a) s = .ok r := by
  obtain ⟨z, hz⟩ := head_exists a hR
  rw [Decode_eq a z hz]
  split
  · exact ⟨_, rfl⟩
  · exact ⟨_, rfl⟩

/-- C16. Index safety: for the encoder `e` that `NewEncoder a` returns, `chars[0]`
exists, the divisor `e.Base` is not zero, every remainder `num % e.Base` is below
`len(chars)`, and so no run of `Encode` (whatever the input and the number of
loop iterations allowed) ends in an index-out-of-range or a division-by-zero
panic, and every run of `Decode` returns normally. -/
theorem index_safety (a : List Byte) (e : Encoder) (he : NewEncoder a = .ok e) :
    (∃ z, e.chars[0]? = some z) ∧ e.Base ≠ 0 ∧
      (∀ num, ∃ c, e.chars[num % e.Base]? = some c) ∧
      (∀ fuel b, EncodeFuel fuel e b ≠ .error .indexOutOfRange ∧
        EncodeFuel fuel e b ≠ .error .divisionByZero) ∧
      (∀ b, ∃ s, Encode e b = .ok s) ∧
      (∀ s, ∃ r, Decode e s = .ok r) := by
  obtain ⟨hlen, rfl⟩ := NewEncoder_ok a e he
  obtain ⟨z, hz⟩ := head_exists a hlen
  refine ⟨⟨z, hz⟩, ?_, ?_, ?_, ?_, Decode_no_panic a hlen⟩
  · show a.length ≠ 0
    omega
  · intro num
    have hlt : num % a.length < a.length := Nat.mod_lt _ (by omega)
    exact ⟨a.get ⟨num % a.length, hlt⟩, by
      simp [encoderOf, Encoder.Base, List.getElem?_eq_getElem hlt]⟩
  · intro fuel b
    rcases EncodeFuel_no_panic a hlen fuel b with ⟨s, h⟩ | h
    · rw [h]
      exact ⟨fun h2 => Except.noConfusion h2, fun h2 => Except.noConfusion h2⟩
    · rw [h]
      exact ⟨fun h2 => Fault.noConfusion (Except.error.inj h2),
        fun h2 => Fault.noConfusion (Except.error.inj h2)⟩
  · intro b
    exact ⟨_, Encode_eq a hlen z hz b⟩

theorem index_safety_witness :
    NewEncoder [48, 49, 50] = .ok (encoderOf [48, 49, 50]) ∧
      (∃ z, (encoderOf [48, 49, 50]).chars[0]? = some z) ∧ (encoderOf [48, 49, 50]).Base ≠ 0 ∧
      (∀ num, ∃ c,
        (encoderOf [48, 49, 50]).chars[num % (encoderOf [48, 49, 50]).Base]? = some c) ∧
      (∀ fuel b, EncodeFuel fuel (encoderOf [48, 49, 50]) b ≠ .error .indexOutOfRange ∧
        EncodeFuel fuel (encoderOf [48, 49, 50]) b ≠ .error .divisionByZero) ∧
      (∀ b, ∃ s, Encode (encoderOf [48, 49, 50]) b = .ok s) ∧
      (∀ s, ∃ r, Decode (encoderOf [48, 49, 50]) s = .ok r) :=
  ⟨rfl, index_safety [48, 49, 50] (encoderOf [48, 49, 50]) rfl⟩

/-! The reverse round trip -/

theorem getD_indexOf (a : List Byte) (c : Byte) (hc : c ∈ a) : a.getD (a.indexOf c) 0 = c := by
  have hlt : a.indexOf c < a.length := List.indexOf_lt_length.mpr hc
  have h := List.indexOf_get hlt
  simp [List.getD, List.getElem?_eq_getElem hlt]

theorem indexOf_ne_zero (a : List Byte) (z : Byte) (hz : a[0]? = some z) (c : Byte)
    (hc : c ∈ a) (hcz : c ≠ z) : a.indexOf c ≠ 0 := by
  intro h0
  have h := getD_indexOf a c hc
  rw [h0, getD_zero a z hz] at h
  exact hcz h.symm

theorem foldIndices_eq (a t : List Byte) :
    foldIndices a t = Nat.ofDigits a.length (t.map (fun c => a.indexOf c)).reverse := by
  have h := foldl_radix a.length (t.map (fun c => a.indexOf c)) 0
  rw [List.foldl_map] at h
  simpa [foldIndices] using h

/-- The digit symbols of the number folded from a text without leading zero symbol
are that text. -/
theorem digitSyms_foldIndices (a : List Byte) (hR : 2 ≤ a.length) (z : Byte)
    (hz : a[0]? = some z) (t : List Byte) (ht : ∀ c ∈ t, c ∈ a)
    (hhead : ∀ c rest, t = c :: rest → c ≠ z) : digitSyms a (foldIndices a t) = t := by
  have hdig : Nat.digits a.length (foldIndices a t) = (t.map (fun c => a.indexOf c)).reverse := by
    rw [foldIndices_eq]
    apply Nat.digits_ofDigits a.length (by omega)
    · intro l hl
      simp only [List.mem_reverse, List.mem_map] at hl
      obtain ⟨c, hc, rfl⟩ := hl
      exact List.indexOf_lt_length.mpr (ht c hc)
    · intro hne
      cases t with
      | nil => simp at hne
      | cons c rest =>
        simp only [List.map_cons, List.reverse_cons]
        rw [List.getLast_append_singleton]
        exact indexOf_ne_zero a z hz c (ht c (List.mem_cons_self _ _)) (hhead c rest rfl)
  rw [digitSyms, hdig, List.map_reverse, List.reverse_reverse, List.map_map]
  conv_rhs => rw [← List.map_id t]
  apply List.map_congr_left
  intro c hc
  exact getD_indexOf a c (ht c hc)

/-- Encoding the bytes that `Decode` returns for a text over the alphabet gives the
text back. -/
theorem encode_decoded (a : List Byte) (hR : 2 ≤ a.length) (z : Byte) (hz : a[0]? = some z)
    (s : List Byte) (hs : ∀ c ∈ s, c ∈ a) :
    Encode (encoderOf a)
        (List.replicate (countLeading z s) 0
          ++ bigBytes (foldIndices a (s.drop (countLeading z s)))) = .ok s := by
  obtain ⟨hsplit, hhead⟩ := countLeading_split z s
  rw [Encode_eq a hR z hz, setBytes_replicate_append, setBytes_bigBytes,
    countLeading_replicate_append, countLeading_of_head 0 _ (bigBytes_head _), Nat.add_zero,
    digitSyms_foldIndices a hR z hz _ (fun c hc => hs c (List.mem_of_mem_drop hc)) hhead,
    ← hsplit]

/-- C17. Reverse round trip: for an alphabet `a` of at least two pairwise distinct
bytes and every text `s` over `a`, `Decode e s` returns bytes `b` without error
and `Encode e b` is `s` again; hence `Decode` is injective on the texts over `a`,
and `s` is the encoding of exactly one byte sequence. -/
theorem encode_decode_round_trip (a : List Byte) (e : Encoder) (hlen : 2 ≤ a.length)
    (ha : a.Nodup) (he : NewEncoder a = .ok e) (s : List Byte) (hs : ∀ c ∈ s, c ∈ a) :
    (∃ b, Decode e s = .ok (b, none) ∧ Encode e b = .ok s) ∧
      (∀ s2, (∀ c ∈ s2, c ∈ a) → Decode e s2 = Decode e s → s2 = s) ∧
      (∃ b, Encode e b = .ok s ∧ ∀ b2, Encode e b2 = .ok s → b2 = b) := by
  obtain ⟨_, rfl⟩ := NewEncoder_ok a e he
  obtain ⟨z, hz⟩ := head_exists a hlen
  have hdec := Decode_eq_fold a ha z hz s hs
  have henc := encode_decoded a hlen z hz s hs
  refine ⟨⟨_, hdec, henc⟩, ?_, ⟨_, henc, ?_⟩⟩
  · intro s2 hs2 heq
    have hdec2 := Decode_eq_fold a ha z hz s2 hs2
    have henc2 := encode_decoded a hlen z hz s2 hs2
    rw [hdec, hdec2] at heq
    have hb := (Prod.mk.inj (Except.ok.inj heq)).1
    rw [hb, henc] at henc2
    exact (Except.ok.inj henc2).symm
  · intro b2 hb2
    have h1 := Encode_eq a hlen z hz b2
    have h2 := decode_encoded a hlen ha z hz b2
    rw [hb2] at h1
    rw [← Except.ok.inj h1, hdec] at h2
    exact ((Prod.mk.inj (Except.ok.inj h2)).1).symm

theorem encode_decode_round_trip_witness :
    2 ≤ ([97, 98, 99] : List Byte).length ∧ ([97, 98, 99] : List Byte).Nodup ∧
      NewEncoder [97, 98, 99] = .ok (encoderOf [97, 98, 99]) ∧
      (∀ c ∈ ([97, 97, 99, 97, 98] : List Byte), c ∈ ([97, 98, 99] : List Byte)) ∧
      (∃ b, Decode (encoderOf [97, 98, 99]) [97, 97, 99, 97, 98] = .ok (b, none) ∧
        Encode (encoderOf [97, 98, 99]) b = .ok [97, 97, 99, 97, 98]) ∧
      (∀ s2, (∀ c ∈ s2, c ∈ ([97, 98, 99] : List Byte)) →
        Decode (encoderOf [97, 98, 99]) s2 = Decode (encoderOf [97, 98, 99]) [97, 97, 99, 97, 98] →
        s2 = [97, 97, 99, 97, 98]) ∧
      (∃ b, Encode (encoderOf [97, 98, 99]) b = .ok [97, 97, 99, 97, 98] ∧
        ∀ b2, Encode (encoderOf [97, 98, 99]) b2 = .ok [97, 97, 99, 97, 98] → b2 = b) :=
  ⟨by decide, by decide, rfl, by simp,
    encode_decode_round_trip [97, 98, 99] (encoderOf [97, 98, 99]) (by decide) (by decide) rfl
      [97, 97, 99, 97, 98] (by simp)⟩

/-- C18. Duplicate symbols break the round trip: `NewEncoder` accepts the alphabet
`aa`, which has length 2 and a repeated symbol; `Encode` of the byte sequence
`[0x01]` is the text `a`, and `Decode` of `a` returns `[0x00, 0x01]`, not `[0x01]`. -/
theorem duplicate_breaks_round_trip :
    2 ≤ ([97, 97] : List Byte).length ∧ ¬ ([97, 97] : List Byte).Nodup ∧
      NewEncoder [97, 97] = .ok (encoderOf [97, 97]) ∧
      Encode (encoderOf [97, 97]) [1] = .ok [97] ∧
      Decode (encoderOf [97, 97]) [97] = .ok ([0, 1], none) ∧
      Decode (encoderOf [97, 97]) [97] ≠ .ok ([1], none) :=
  ⟨by decide, by decide, rfl, rfl, rfl, fun h => by
    have h2 := (Prod.mk.inj (Except.ok.inj h)).1
    exact absurd h2 (by decide)⟩

/-! Length of the output -/

theorem digits_length_upper (R N m : Nat) (hR : 2 ≤ R) (hN : N < 2 ^ (8 * m)) :
    (Nat.digits R N).length ≤ 8 * m := by
  by_cases h0 : N = 0
  · subst h0
    simp
  · have hle := Nat.base_pow_length_digits_le R N (by omega) h0
    have hpos : (Nat.digits R N).length ≠ 0 := by
      intro h
      exact h0 (Nat.digits_eq_nil_iff_eq_zero.mp (List.length_eq_zero.mp h))
    obtain ⟨L, hL⟩ : ∃ L, (Nat.digits R N).length = L + 1 :=
      ⟨(Nat.digits R N).length - 1, by omega⟩
    rw [hL, pow_succ, Nat.mul_comm] at hle
    have h1 : R ^ L ≤ N := Nat.le_of_mul_le_mul_left hle (by omega)
    have h2 : 2 ^ L ≤ R ^ L := Nat.pow_le_pow_left hR L
    have h3 : 2 ^ L < 2 ^ (8 * m) := lt_of_le_of_lt (le_trans h2 h1) hN
    have h4 : L < 8 * m := (Nat.pow_lt_pow_iff_right (by decide)).mp h3
    omega

theorem digits_length_lower (R N m : Nat) (hR2 : 2 ≤ R) (hR : R ≤ 256)
    (hN : 256 ^ m ≤ 256 * N) : m ≤ (Nat.digits R N).length := by
  have h1 : N < R ^ (Nat.digits R N).length := Nat.lt_base_pow_length_digits (by omega)
  have h2 : R ^ (Nat.digits R N).length ≤ 256 ^ (Nat.digits R N).length :=
    Nat.pow_le_pow_left hR _
  have h3 : 256 ^ m < 256 ^ ((Nat.digits R N).length + 1) := by
    rw [pow_succ, Nat.mul_comm]
    exact lt_of_le_of_lt hN (Nat.mul_lt_mul_of_pos_left (lt_of_lt_of_le h1 h2) (by decide))
  have h4 : m < (Nat.digits R N).length + 1 := (Nat.pow_lt_pow_iff_right (by decide)).mp h3
  omega

theorem setBytes_lower (r : List Byte) (hr : ∀ c rest, r = c :: rest → c ≠ 0) (hne : r ≠ []) :
    256 ^ r.length ≤ 256 * setBytes r := by
  have hN : setBytes r ≠ 0 := by
    cases r with
    | nil => exact absurd rfl hne
    | cons c rest => exact setBytes_ne_zero c rest (hr c rest rfl)
  have hlen : (Nat.digits 256 (setBytes r)).length = r.length := by
    have h := congrArg List.length (bigBytes_val (setBytes r))
    rw [bigBytes_setBytes r hr, List.length_map, List.length_reverse] at h
    exact h.symm
  have h := Nat.base_pow_length_digits_le 256 (setBytes r) (by decide) hN
  rw [hlen] at h
  exact h

theorem alphabet_length_le (a : List Byte) (ha : a.Nodup) : a.length ≤ 256 := by
  have h := List.Nodup.length_le_card ha
  rw [Fintype.card_fin] at h
  exact h

/-- C19. Output length bounds: for an alphabet `a` of at least two pairwise distinct
bytes (so `2 <= radix <= 256`) and every byte sequence `b`, the text `s` that
`Encode e b` returns satisfies `len(b) <= len(s) <= 8 * len(b)`. -/
theorem encode_length_bounds (a : List Byte) (e : Encoder) (hlen : 2 ≤ a.length)
    (ha : a.Nodup) (he : NewEncoder a = .ok e) (b : List Byte) :
    2 ≤ e.Base ∧ e.Base ≤ 256 ∧
      ∃ s, Encode e b = .ok s ∧ b.length ≤ s.length ∧ s.length ≤ 8 * b.length := by
  obtain ⟨_, rfl⟩ := NewEncoder_ok a e he
  obtain ⟨z, hz⟩ := head_exists a hlen
  have h256 := alphabet_length_le a ha
  refine ⟨hlen, h256, _, Encode_eq a hlen z hz b, ?_, ?_⟩
  all_goals
    obtain ⟨hsplit, hhead⟩ := countLeading_split 0 b
    have hN : setBytes b = setBytes (b.drop (countLeading 0 b)) := by
      conv_lhs => rw [hsplit]
      exact setBytes_replicate_append _ _
    have hblen : b.length = countLeading 0 b + (b.drop (countLeading 0 b)).length := by
      have := countLeading_le 0 b
      rw [List.length_drop]
      omega
    simp only [List.length_append, List.length_replicate, digitSyms, List.length_reverse,
      List.length_map]
    rw [hN]
  · by_cases hne : b.drop (countLeading 0 b) = []
    · rw [hne] at hblen
      simp only [List.length_nil] at hblen
      omega
    · have h := digits_length_lower a.length _ _ hlen h256 (setBytes_lower _ hhead hne)
      omega
  · have h := digits_length_upper a.length _ _ hlen (setBytes_lt (b.drop (countLeading 0 b)))
    omega

theorem encode_length_bounds_witness :
    2 ≤ base58Chars.length ∧ base58Chars.Nodup ∧
      NewEncoder base58Chars = .ok (encoderOf base58Chars) ∧
      2 ≤ (encoderOf base58Chars).Base ∧ (encoderOf base58Chars).Base ≤ 256 ∧
      ∃ s, Encode (encoderOf base58Chars) [0, 7, 255, 0, 1] = .ok s ∧
        ([0, 7, 255, 0, 1] : List Byte).length ≤ s.length ∧
        s.length ≤ 8 * ([0, 7, 255, 0, 1] : List Byte).length :=
  ⟨by decide, by decide, rfl,
    encode_length_bounds base58Chars (encoderOf base58Chars) (by decide) (by decide) rfl
      [0, 7, 255, 0, 1]⟩

end Basex
